import Mathlib

/-!
Shallow embedding of the feed-aggregation core of the `rss` repository
(package `rss`, files `feeds.go` and `colour.go`), together with theorems
settling the specification claims about it.

Modelling conventions:
* `time.Time` instants are modelled as `Int` nanoseconds since the Unix
  epoch; the zero value of `time.Time` (January 1, year 1 UTC) is the
  constant `goTimeZero`.
* `time.Duration` is an `Int` constrained to the `int64` range; the
  saturating subtraction performed by `time.Time.Sub` (and hence
  `time.Since`) is `goSince`.
* Go maps used as string sets are modelled as `List String` with
  membership; insertion order is irrelevant to membership.
* External collaborators (HTTP, XML decoding, `time.Parse`, `net/url`
  parsing) are universally-quantified function parameters: theorems hold
  for every behaviour of the collaborator.
-/

/-- FeedItem mirrors the Go struct `FeedItem` of feeds.go (Title,
PublishTime, Links, Feed, Channel). -/
structure FeedItem where
  Title : String
  PublishTime : Int
  Links : List String
  Feed : String
  Channel : String
deriving Repr, DecidableEq, Inhabited

/-- Nanoseconds of the zero `time.Time` (0001-01-01T00:00:00Z) relative to
the Unix epoch: -62135596800 seconds. -/
def goTimeZero : Int := -62135596800 * 1000000000

/-- Maximum `time.Duration` (`1<<63 - 1` nanoseconds). -/
def goMaxDuration : Int := 2 ^ 63 - 1

/-- Minimum `time.Duration` (`-1 << 63` nanoseconds). -/
def goMinDuration : Int := -(2 ^ 63)

/-- Saturating difference `t - u` as computed by Go's `time.Time.Sub`:
the exact difference when it is representable as an `int64` number of
nanoseconds, otherwise the clamped extreme. `time.Since(u)` is
`goSince now u`. -/
def goSince (t u : Int) : Int :=
  if t - u > goMaxDuration then goMaxDuration
  else if t - u < goMinDuration then goMinDuration
  else t - u

/-- OldestItem mirrors `OldestItem(maxAge)` of feeds.go: the filter accepts
an item iff `time.Since(item.PublishTime) <= maxAge`.  `now` is the ambient
clock value. -/
def OldestItem (now maxAge : Int) (item : FeedItem) : Bool :=
  decide (goSince now item.PublishTime ≤ maxAge)

/-- Step of the closure returned by `Deduplicate()` in feeds.go, on one
item's link list: walk the links; if a link is already in the seen set,
reject (leaving the links recorded so far in place); otherwise record the
link and continue.  Returns the acceptance verdict and the updated seen
set. -/
def dedupStep (urls : List String) : List String → Bool × List String
  | [] => (true, urls)
  | link :: rest =>
    if link ∈ urls then (false, urls)
    else dedupStep (link :: urls) rest

/-- Seen-set of a `Deduplicate()` instance after it has processed the given
items in order. -/
def dedupSeen (urls : List String) : List FeedItem → List String
  | [] => urls
  | item :: items => dedupSeen (dedupStep urls item.Links).2 items

/-- Verdicts returned by a single `Deduplicate()` instance over a sequence
of items presented in order, starting from seen-set `urls`. -/
def dedupResults (urls : List String) : List FeedItem → List Bool
  | [] => []
  | item :: items =>
    let r := dedupStep urls item.Links
    r.1 :: dedupResults r.2 items

/-- Links of the items that were accepted among `items` (run from seen-set
`urls`), in order of acceptance.  This is the notion "links of previously
accepted items" used by the specification claim. -/
def acceptedLinks (urls : List String) : List FeedItem → List String
  | [] => []
  | item :: items =>
    let r := dedupStep urls item.Links
    (if r.1 then item.Links else []) ++ acceptedLinks r.2 items

/-- Claim C1 as stated by the specification, as a proposition over the
code's run function: an item is accepted iff none of its links occurs
among the links of previously accepted items. -/
def DedupSpecClaim : Prop :=
  ∀ (items : List FeedItem) (i : Nat) (h : i < items.length),
    (dedupResults [] items).getD i false = true ↔
      ∀ link ∈ (items.get ⟨i, h⟩).Links,
        link ∉ acceptedLinks [] (items.take i)

/-! ### Embedding of Go 1.18 `sort.Slice` (sort/zfuncversion.go)

`ReverseChronological` calls `sort.Slice`. go.mod pins `go 1.18`, whose
`sort.Slice` is the classic introsort: quicksort with median-of-three
pivoting, a heap-sort depth fallback, and, for ranges of at most 12
elements, a single shell-sort pass with gap 6 followed by insertion sort.
The slice is modelled as a `List`; loops that move indices are modelled by
structural recursion on a counter, and loops whose termination is less
direct take an explicit fuel argument that is chosen large enough at every
call site (fuel exhaustion returns the state unchanged). -/

/-- Read of `data[i]`; in-range at every reachable call. -/
def lget {α : Type} [Inhabited α] (l : List α) (i : Nat) : α := l.getD i default

/-- Swap of `data.Swap(i, j)`; the guard records that every reachable call
is in range (Go would panic otherwise). -/
def lswap {α : Type} [Inhabited α] (l : List α) (i j : Nat) : List α :=
  if i < l.length ∧ j < l.length then (l.set i (lget l j)).set j (lget l i) else l

/-- Inner loop of `insertionSort_func`:
`for j := i; j > a && data.Less(j, j-1); j-- { data.Swap(j, j-1) }`. -/
def insertionInner {α : Type} [Inhabited α] (less : α → α → Bool) (a : Nat) :
    Nat → List α → List α
  | 0, l => l
  | j + 1, l =>
    if a < j + 1 ∧ less (lget l (j + 1)) (lget l j) = true then
      insertionInner less a j (lswap l (j + 1) j)
    else l

/-- Outer loop of `insertionSort_func`: `for i := a + 1; i < b; i++`,
running the inner loop at each `i`; the first argument counts the
remaining iterations `b - i`. -/
def insertionOuter {α : Type} [Inhabited α] (less : α → α → Bool) (a : Nat) :
    Nat → Nat → List α → List α
  | 0, _, l => l
  | n + 1, i, l => insertionOuter less a n (i + 1) (insertionInner less a i l)

/-- `insertionSort_func(data, a, b)` of Go 1.18 sort. -/
def insertionSortRange {α : Type} [Inhabited α] (less : α → α → Bool)
    (a b : Nat) (l : List α) : List α :=
  insertionOuter less a (b - (a + 1)) (a + 1) l

/-- Shell-sort pass with gap 6 done by `quickSort_func` on ranges of at
most 12 elements: `for i := a + 6; i < b; i++ { if data.Less(i, i-6)
{ data.Swap(i, i-6) } }`; the first argument counts remaining
iterations. -/
def shellPassGo {α : Type} [Inhabited α] (less : α → α → Bool) :
    Nat → Nat → List α → List α
  | 0, _, l => l
  | n + 1, i, l =>
    shellPassGo less n (i + 1)
      (if less (lget l i) (lget l (i - 6)) then lswap l i (i - 6) else l)

/-- The gap-6 pass over the range `[a, b)`. -/
def shellPass {α : Type} [Inhabited α] (less : α → α → Bool)
    (a b : Nat) (l : List α) : List α :=
  shellPassGo less (b - (a + 6)) (a + 6) l

/-- `siftDown_func(data, lo, hi, first)` with `root` as second argument
and fuel first (the root strictly increases, so any fuel above `hi`
suffices). -/
def siftDown {α : Type} [Inhabited α] (less : α → α → Bool) (first : Nat) :
    Nat → Nat → Nat → List α → List α
  | 0, _, _, l => l
  | fuel + 1, root, hi, l =>
    let child := 2 * root + 1
    if child ≥ hi then l
    else
      let child :=
        if child + 1 < hi ∧ less (lget l (first + child)) (lget l (first + child + 1)) = true
        then child + 1 else child
      if less (lget l (first + root)) (lget l (first + child)) then
        siftDown less first fuel child hi (lswap l (first + root) (first + child))
      else l

/-- First loop of `heapSort_func`: `for i := (hi-1)/2; i >= 0; i--
{ siftDown(i, hi, first) }`; the counter argument is `i + 1`. -/
def heapify {α : Type} [Inhabited α] (less : α → α → Bool) (first hi : Nat) :
    Nat → List α → List α
  | 0, l => l
  | c + 1, l => heapify less first hi c (siftDown less first (hi + 1) c hi l)

/-- Second loop of `heapSort_func`: `for i := hi - 1; i > 0; i--
{ data.Swap(first, first+i); siftDown(0, i, first) }`. -/
def heapExtract {α : Type} [Inhabited α] (less : α → α → Bool) (first : Nat) :
    Nat → List α → List α
  | 0, l => l
  | i + 1, l =>
    heapExtract less first i
      (siftDown less first (i + 2) 0 (i + 1) (lswap l first (first + (i + 1))))

/-- `heapSort_func(data, a, b)` of Go 1.18 sort. -/
def heapSortRange {α : Type} [Inhabited α] (less : α → α → Bool)
    (a b : Nat) (l : List α) : List α :=
  heapExtract less a (b - a - 1) (heapify less a (b - a) ((b - a - 1) / 2 + 1) l)

/-- `medianOfThree_func(data, m1, m0, m2)` of Go 1.18 sort. -/
def medianOfThree {α : Type} [Inhabited α] (less : α → α → Bool)
    (m1 m0 m2 : Nat) (l : List α) : List α :=
  let l := if less (lget l m1) (lget l m0) then lswap l m1 m0 else l
  if less (lget l m2) (lget l m1) then
    let l := lswap l m2 m1
    if less (lget l m1) (lget l m0) then lswap l m1 m0 else l
  else l

/-- `doPivot_func` scan `for ; a < c && data.Less(a, pivot); a++`. -/
def dpLoopA {α : Type} [Inhabited α] (less : α → α → Bool) (pivot c : Nat) :
    Nat → Nat → List α → Nat
  | 0, a, _ => a
  | fuel + 1, a, l =>
    if a < c ∧ less (lget l a) (lget l pivot) = true then dpLoopA less pivot c fuel (a + 1) l
    else a

/-- `doPivot_func` scan `for ; b < c && !data.Less(pivot, b); b++`. -/
def dpLoopB {α : Type} [Inhabited α] (less : α → α → Bool) (pivot : Nat) :
    Nat → Nat → Nat → List α → Nat
  | 0, b, _, _ => b
  | fuel + 1, b, c, l =>
    if b < c ∧ less (lget l pivot) (lget l b) = false then dpLoopB less pivot fuel (b + 1) c l
    else b

/-- `doPivot_func` scan `for ; b < c && data.Less(pivot, c-1); c--`. -/
def dpLoopC {α : Type} [Inhabited α] (less : α → α → Bool) (pivot : Nat) :
    Nat → Nat → Nat → List α → Nat
  | 0, _, c, _ => c
  | fuel + 1, b, c, l =>
    if b < c ∧ less (lget l pivot) (lget l (c - 1)) = true then dpLoopC less pivot fuel b (c - 1) l
    else c

/-- Middle partition loop of `doPivot_func` (scan, scan, swap, repeat). -/
def dpMain {α : Type} [Inhabited α] (less : α → α → Bool) (pivot : Nat) :
    Nat → Nat → Nat → List α → Nat × Nat × List α
  | 0, b, c, l => (b, c, l)
  | fuel + 1, b, c, l =>
    let b := dpLoopB less pivot (c + 1) b c l
    let c := dpLoopC less pivot (c + 1) b c l
    if b ≥ c then (b, c, l)
    else dpMain less pivot fuel (b + 1) (c - 1) (lswap l b (c - 1))

/-- Protect-phase scan `for ; a < b && !data.Less(b-1, pivot); b--`. -/
def dpLoopD {α : Type} [Inhabited α] (less : α → α → Bool) (pivot : Nat) :
    Nat → Nat → Nat → List α → Nat
  | 0, _, b, _ => b
  | fuel + 1, a, b, l =>
    if a < b ∧ less (lget l (b - 1)) (lget l pivot) = false then dpLoopD less pivot fuel a (b - 1) l
    else b

/-- Protect-phase scan `for ; a < b && data.Less(a, pivot); a++`. -/
def dpLoopE {α : Type} [Inhabited α] (less : α → α → Bool) (pivot : Nat) :
    Nat → Nat → Nat → List α → Nat
  | 0, a, _, _ => a
  | fuel + 1, a, b, l =>
    if a < b ∧ less (lget l a) (lget l pivot) = true then dpLoopE less pivot fuel (a + 1) b l
    else a

/-- Protect loop of `doPivot_func` (scan, scan, swap, repeat); returns the
final `b` and the slice. -/
def dpProtect {α : Type} [Inhabited α] (less : α → α → Bool) (pivot : Nat) :
    Nat → Nat → Nat → List α → Nat × List α
  | 0, _, b, l => (b, l)
  | fuel + 1, a, b, l =>
    let b1 := dpLoopD less pivot (b + 1) a b l
    let a1 := dpLoopE less pivot (b1 + 1) a b1 l
    if a1 ≥ b1 then (b1, l)
    else dpProtect less pivot fuel (a1 + 1) (b1 - 1) (lswap l a1 (b1 - 1))

/-- Pivot-selection phase of `doPivot_func`: the Tukey-ninther
`medianOfThree` calls for long ranges, then the main `medianOfThree` on
`lo`, `m`, `hi-1`. -/
def doPivotMedians {α : Type} [Inhabited α] (less : α → α → Bool)
    (lo hi : Nat) (l : List α) : List α :=
  let m := (lo + hi) / 2
  let l :=
    if hi - lo > 40 then
      let s := (hi - lo) / 8
      let l := medianOfThree less lo (lo + s) (lo + 2 * s) l
      let l := medianOfThree less m (m - s) (m + s) l
      medianOfThree less (hi - 1) (hi - 1 - s) (hi - 1 - 2 * s) l
    else l
  medianOfThree less lo m (hi - 1) l

/-- Duplicate-detection phase of `doPivot_func` (the `if !protect &&
hi-c < (hi-lo)/4` block); `pivot = lo`.  Returns the updated `b`, `c`, the
slice and the `protect` flag. -/
def doPivotBalance {α : Type} [Inhabited α] (less : α → α → Bool)
    (lo hi m b1 c1 : Nat) (l : List α) : Nat × Nat × List α × Bool :=
  let protect0 := hi - c1 < 5
  if ¬ protect0 ∧ hi - c1 < (hi - lo) / 4 then
    let r3 :=
      if less (lget l lo) (lget l (hi - 1)) = false then (c1 + 1, 1, lswap l c1 (hi - 1))
      else (c1, 0, l)
    let c2 := r3.1
    let dups1 := r3.2.1
    let l1 := r3.2.2
    let r4 :=
      if less (lget l1 (b1 - 1)) (lget l1 lo) = false then (b1 - 1, dups1 + 1)
      else (b1, dups1)
    let b2 := r4.1
    let dups2 := r4.2
    let r5 :=
      if less (lget l1 m) (lget l1 lo) = false then (b2 - 1, dups2 + 1, lswap l1 (b2 - 1) m)
      else (b2, dups2, l1)
    (r5.1, c2, r5.2.2, decide (r5.2.1 > 1))
  else (b1, c1, l, decide protect0)

/-- `doPivot_func(data, lo, hi)` of Go 1.18 sort: pivot selection, the
initial scan, the main partition loop, the duplicate check and the
protect loop; returns `(midlo, midhi)` and the permuted slice. -/
def doPivot {α : Type} [Inhabited α] (less : α → α → Bool)
    (lo hi : Nat) (l : List α) : Nat × Nat × List α :=
  let m := (lo + hi) / 2
  let l := doPivotMedians less lo hi l
  let pivot := lo
  let a1 := dpLoopA less pivot (hi - 1) (hi - 1 + 1) (lo + 1) l
  let r := dpMain less pivot (hi + 1) a1 (hi - 1) l
  let r2 := doPivotBalance less lo hi m r.1 r.2.1 r.2.2
  let r6 := if r2.2.2.2 then dpProtect less pivot (hi + 1) a1 r2.1 r2.2.2.1
    else (r2.1, r2.2.2.1)
  (r6.1 - 1, r2.2.1, lswap r6.2 pivot (r6.1 - 1))

/-- `maxDepth(n)` of Go 1.18 sort: twice the bit length of `n`. -/
def goSortMaxDepth (n : Nat) : Nat := 2 * (if n = 0 then 0 else n.log2 + 1)

/-- `quickSort_func(data, a, b, maxDepth)` of Go 1.18 sort, with fuel for
the outer loop/recursion (the range shrinks strictly, so fuel above the
range length suffices). -/
def quickSortGo {α : Type} [Inhabited α] (less : α → α → Bool) :
    Nat → Nat → Nat → Nat → List α → List α
  | 0, _, _, _, l => l
  | fuel + 1, a, b, maxDepth, l =>
    if b - a > 12 then
      if maxDepth = 0 then heapSortRange less a b l
      else
        let r := doPivot less a b l
        let mlo := r.1
        let mhi := r.2.1
        let l := r.2.2
        if mlo - a < b - mhi then
          quickSortGo less fuel mhi b (maxDepth - 1) (quickSortGo less fuel a mlo (maxDepth - 1) l)
        else
          quickSortGo less fuel a mlo (maxDepth - 1) (quickSortGo less fuel mhi b (maxDepth - 1) l)
    else
      if b - a > 1 then insertionSortRange less a b (shellPass less a b l)
      else l

/-- `sort.Slice(x, less)` of Go 1.18. -/
def goSortSlice {α : Type} [Inhabited α] (less : α → α → Bool) (l : List α) : List α :=
  quickSortGo less (l.length + 1) 0 l.length (goSortMaxDepth l.length) l

/-- Comparison closure of `ReverseChronological`:
`feedItems[i].PublishTime.After(feedItems[j].PublishTime)`. -/
def feedLess (x y : FeedItem) : Bool := decide (y.PublishTime < x.PublishTime)

/-- ReverseChronological of feeds.go: `sort.Slice` by `PublishTime`
descending. -/
def ReverseChronological (l : List FeedItem) : List FeedItem := goSortSlice feedLess l

/-! ### Grouped display mode (feeds.go) -/

/-- ANSI reset code (`"\033[0m"`). -/
def goReset : String := "\x1b[0m"

/-- ANSI green code (`"\033[32m"`). -/
def goGreen : String := "\x1b[32m"

/-- colourize of feeds.go: `fmt.Sprintf("%s%s%s", c, text, reset)`. -/
def colourize (text c : String) : String := c ++ text ++ goReset

/-- Zero value `FeedItem{}` (empty strings, zero time, nil links). -/
def emptyFeedItem : FeedItem := ⟨"", goTimeZero, [], "", ""⟩

/-- Title card emitted by `Grouped`:
`FeedItem{Title: colourize(feed, green)}`. -/
def titleCardItem (feed : String) : FeedItem := ⟨colourize feed goGreen, goTimeZero, [], "", ""⟩

/-- Map `itemsByFeed` built by `Grouped`, as a function from feed name to
the group's items in input order (`itemsByFeed[item.Feed] = append(...)`). -/
def itemsByFeed (items : List FeedItem) : String → List FeedItem :=
  items.foldl (fun m it => fun k => if k = it.Feed then m k ++ [it] else m k) (fun _ => [])

/-- Distinct `Feed` values of the input in first-occurrence order: the key
set of `itemsByFeed`. -/
def feedKeys (items : List FeedItem) : List String :=
  items.foldl (fun ks it => if it.Feed ∈ ks then ks else ks ++ [it.Feed]) []

/-- Grouped of feeds.go with the map-iteration order made explicit: for
each key in `order`, skip empty groups, then emit the separator, the title
card, and the group in `ReverseChronological` order.  Go iterates the map
in unspecified order, so theorems quantify over every `order` that
enumerates the key set. -/
def GroupedWith (order : List String) (items : List FeedItem) : List FeedItem :=
  (order.map (fun feed =>
    let group := itemsByFeed items feed
    if group = [] then []
    else emptyFeedItem :: titleCardItem feed :: ReverseChronological group)).flatten

/-- Grouped at one admissible iteration order (first-occurrence order of
the keys); for inputs whose items all share one feed value this is the
only possible output. -/
def Grouped (items : List FeedItem) : List FeedItem :=
  GroupedWith (feedKeys items) items

/-! ### Raw feed model, date parsing, link formatting, unpacking
(feeds.go) -/

/-- Item mirrors the raw XML `Item` struct of feeds.go (the `[]byte`
description is modelled as a `String`; it plays no role in any claim). -/
structure Item where
  Title : String
  Link : String
  PubDate : String
  GUID : String
  Comments : String
  Description : String
deriving Repr, DecidableEq, Inhabited

/-- Channel mirrors the `Channel` struct of feeds.go. -/
structure Channel where
  Title : String
  Link : String
  Description : String
  Generator : String
  Language : String
  Items : List Item
deriving Repr, DecidableEq, Inhabited

/-- Feed mirrors `Feed` of feeds.go: the source URL plus the embedded
`RSS` document, flattened to its only field, the channel. -/
structure Feed where
  URL : String
  Channel : Channel
deriving Repr, DecidableEq, Inhabited

/-- Configured paywall prefix list of feeds.go. -/
def paywalls : List String := ["https://www.ft.com"]

/-- The test `strings.HasPrefix(s, p)`, on the character lists of the two
strings (`String.isPrefixOf` does not reduce well in the kernel). -/
def goStringsHasPre (s p : String) : Bool := p.data.isPrefixOf s.data

/-- Paywall detection of `linkFormatter`: some configured prefix is a
prefix of the feed's source URL. -/
def goHasPaywall (feedURL : String) : Bool :=
  paywalls.any (fun pw => goStringsHasPre feedURL pw)

/-- Link selection of `linkFormatter`: the item's link, or its GUID when
the link is empty. -/
def goLinkOf (item : Item) : String := if item.Link = "" then item.GUID else item.Link

/-- linkFormatter of feeds.go.  `strip` abstracts the `net/url` round trip
(`url.Parse`, clear `RawQuery`, `String()`): it returns either the
query-stripped link or, for a parse failure, the error's message, which
the code returns directly as the link. -/
def linkFormatter (strip : String → Except String String) (feed : Feed) (item : Item) : String :=
  match strip (goLinkOf item) with
  | .error e => e
  | .ok s => if goHasPaywall feed.URL then "https://archive.is/" ++ s else s

/-- dateFormats of feeds.go: `time.RFC1123`, `time.RFC1123Z` and the
hand-rolled legacy variant, in order. -/
def dateFormats : List String :=
  ["Mon, 02 Jan 2006 15:04:05 MST", "Mon, 02 Jan 2006 15:04:05 -0700",
   "Mon, 2 Jan 2006 15:04:05 MST"]

/-- Loop of `newDateParser` over the formats: `t, err = time.Parse(format,
rawDate)` with a break on the first success; on total failure the error of
the last attempt is returned (Go leaves the zero `time.Time` in `t`).
`parse` abstracts `time.Parse` (format, raw date). -/
def tryFormats (parse : String → String → Except String Int) (rawDate : String) :
    List String → Except String Int
  | [] => .ok goTimeZero
  | f :: fs =>
    match parse f rawDate, fs with
    | .ok v, _ => .ok v
    | .error e, [] => .error e
    | .error _, g :: gs => tryFormats parse rawDate (g :: gs)

/-- newDateParser of feeds.go built with default timestamp `t`: the empty
raw date returns `t` with no error; otherwise the formats are tried in
order. -/
def newDateParser (parse : String → String → Except String Int) (t : Int)
    (rawDate : String) : Except String Int :=
  if rawDate = "" then .ok t else tryFormats parse rawDate dateFormats

/-- newFeedItemCreator of feeds.go for one feed (its `parseDate` default
timestamp is `now`, the value of `time.Now()` at construction): formats
the primary link, appends the comments link when present, parses the
publish date (failure drops the item), and builds the `FeedItem`. -/
def newFeedItemCreator (parse : String → String → Except String Int)
    (strip : String → Except String String) (now : Int) (feed : Feed)
    (item : Item) : Except String FeedItem :=
  let links := linkFormatter strip feed item ::
    (if item.Comments ≠ "" then [item.Comments] else [])
  match newDateParser parse now item.PubDate with
  | .error e => .error e
  | .ok pubTime => .ok ⟨item.Title, pubTime, links, feed.Channel.Title, feed.Channel.Title⟩

/-- Stateful filter: the Go `Filter` closures carry private state, made
explicit as a state component of type `σ` threaded through the calls. -/
def StFilter (σ : Type) := σ → FeedItem → Bool × σ

/-- Left-to-right filter application with short-circuit on the first
rejection (`continue itemloop` in `GetFeedItems`): later filters are not
invoked and do not update their state. -/
def applyFilters {σ : Type} : List (StFilter σ) → σ → FeedItem → Bool × σ
  | [], s, _ => (true, s)
  | f :: fs, s, item =>
    let r := f s item
    if r.1 then applyFilters fs r.2 item else (false, r.2)

/-- Inner loop of `GetFeedItems` over one feed's raw items: construction
errors drop the item (filters are not consulted); otherwise the filters
decide, and accepted items are appended. -/
def unpackItems {σ : Type} (parse : String → String → Except String Int)
    (strip : String → Except String String) (now : Int) (feed : Feed)
    (filters : List (StFilter σ)) : σ → List Item → List FeedItem × σ
  | s, [] => ([], s)
  | s, item :: items =>
    match newFeedItemCreator parse strip now feed item with
    | .error _ => unpackItems parse strip now feed filters s items
    | .ok fi =>
      let r := applyFilters filters s fi
      let rest := unpackItems parse strip now feed filters r.2 items
      (if r.1 then fi :: rest.1 else rest.1, rest.2)

/-- Outer loop of `GetFeedItems` over the feed list: `nil` feeds are
skipped; filter state persists across feeds. -/
def getFeedItemsGo {σ : Type} (parse : String → String → Except String Int)
    (strip : String → Except String String) (now : Int)
    (filters : List (StFilter σ)) : σ → List (Option Feed) → List FeedItem × σ
  | s, [] => ([], s)
  | s, none :: feeds => getFeedItemsGo parse strip now filters s feeds
  | s, some feed :: feeds =>
    let r := unpackItems parse strip now feed filters s feed.Channel.Items
    let rest := getFeedItemsGo parse strip now filters r.2 feeds
    (r.1 ++ rest.1, rest.2)

/-- GetFeedItems of feeds.go over already-fetched feeds (`parse`, `strip`
and `now` abstract `time.Parse`, the `net/url` round trip and
`time.Now()`), with the filters' initial state `s0`. -/
def GetFeedItems {σ : Type} (parse : String → String → Except String Int)
    (strip : String → Except String String) (now : Int)
    (feeds : List (Option Feed)) (filters : List (StFilter σ)) (s0 : σ) : List FeedItem :=
  (getFeedItemsGo parse strip now filters s0 feeds).1

/-- RefreshFeeds of feeds.go: one goroutine per URL writes slot `i` of a
preallocated result slice with the outcome of `getFeed(urls[i])` (`none`
on a fetch or decode error); `fetch` abstracts `getFeed`.  Slot `i` is
written exactly once, by the goroutine for URL `i`, so the join of the
fan-out is the index-aligned map. -/
def RefreshFeeds (fetch : String → Option Feed) (urls : List String) : List (Option Feed) :=
  urls.map fetch

/-! ### Feed persistence merge (colour.go storage part) -/

/-- Merge key of `hashItems`: `item.Title + item.PubDate`. -/
def itemKey (item : Item) : String := item.Title ++ item.PubDate

/-- Insertion into the Go map modelled as an association list without
duplicate keys: overwrite the existing entry or append a fresh one. -/
def mapInsert (m : List (String × Item)) (k : String) (v : Item) : List (String × Item) :=
  if k ∈ m.map Prod.fst then m.map (fun kv => if kv.1 = k then (k, v) else kv)
  else m ++ [(k, v)]

/-- hashItems of colour.go: map each `title+pubDate` key to the last item
carrying it. -/
def hashItems (items : List Item) : List (String × Item) :=
  items.foldl (fun m item => mapInsert m (itemKey item) item) []

/-- Key-membership test `_, ok := itemsA[key]`. -/
def mapHasKey (m : List (String × Item)) (k : String) : Bool :=
  m.any (fun kv => kv.1 = k)

/-- merge of colour.go with the iteration order over `hashItems(b)` made
explicit as `enumB` (Go map iteration order is unspecified): items of `b`
whose key already occurs in `a` are skipped, the rest are appended to
`a`'s items. -/
def mergeWith (enumB : List (String × Item)) (a : Feed) : Feed :=
  let itemsA := hashItems a.Channel.Items
  let toAppend := (enumB.filter (fun kv => mapHasKey itemsA kv.1 = false)).map Prod.snd
  { a with Channel := { a.Channel with Items := a.Channel.Items ++ toAppend } }

/-- merge of colour.go at one admissible iteration order. -/
def merge (a b : Feed) : Feed := mergeWith (hashItems b.Channel.Items) a

/-! ### Auxiliary list-level characterisation of the insertion sort -/

/-- Publish-time comparison used to characterise the insertion sort. -/
def timeLE (x y : FeedItem) : Prop := x.PublishTime ≤ y.PublishTime

instance : DecidableRel timeLE := fun x y => Int.decLe x.PublishTime y.PublishTime

instance : IsTotal FeedItem timeLE := ⟨fun x y => Int.le_total x.PublishTime y.PublishTime⟩

instance : IsTrans FeedItem timeLE := ⟨fun _ _ _ hab hbc => le_trans hab hbc⟩

/-- List-level stable descending sort by publish time: repeated stable
ordered insertion into an ascending accumulator, then reversed. -/
def stableDescSort (l : List FeedItem) : List FeedItem :=
  (l.foldl (fun v x => List.orderedInsert timeLE x v) []).reverse

/-- Per-item behaviour of the `Deduplicate()` closure: an item's link walk
accepts iff the links are pairwise distinct and none is in the seen set. -/
theorem dedupStep_accept_iff (urls links : List String) :
    (dedupStep urls links).1 = true ↔ links.Nodup ∧ ∀ l ∈ links, l ∉ urls := by
  induction links generalizing urls with
  | nil => simp [dedupStep]
  | cons l rest ih =>
    by_cases h : l ∈ urls
    · simp only [dedupStep, if_pos h]
      constructor
      · intro hx; cases hx
      · rintro ⟨-, hall⟩
        exact absurd h (hall l (by simp))
    · simp only [dedupStep, if_neg h, ih]
      constructor
      · rintro ⟨hnd, hall⟩
        refine ⟨List.nodup_cons.mpr ⟨?_, hnd⟩, ?_⟩
        · intro hmem
          exact absurd (List.mem_cons_self l urls) (hall l hmem)
        · intro x hx
          rcases List.mem_cons.mp hx with rfl | hx'
          · exact h
          · exact fun hxu => (hall x hx') (List.mem_cons_of_mem _ hxu)
      · rintro ⟨hnd, hall⟩
        rcases List.nodup_cons.mp hnd with ⟨hl, hnd'⟩
        refine ⟨hnd', ?_⟩
        intro x hx hmem
        rcases List.mem_cons.mp hmem with rfl | hxu
        · exact hl hx
        · exact (hall x (List.mem_cons_of_mem _ hx)) hxu

/-- Run-level acceptance of `Deduplicate()` from an arbitrary seen set. -/
theorem dedup_run_general (items : List FeedItem) (urls : List String) (i : Nat)
    (h : i < items.length) :
    (dedupResults urls items).getD i false = true ↔
      ((items.get ⟨i, h⟩).Links.Nodup ∧
        ∀ l ∈ (items.get ⟨i, h⟩).Links, l ∉ dedupSeen urls (items.take i)) := by
  induction items generalizing urls i with
  | nil => cases h
  | cons it rest ih =>
    cases i with
    | zero =>
      simpa [dedupResults, dedupSeen] using dedupStep_accept_iff urls it.Links
    | succ j =>
      have hj : j < rest.length := Nat.lt_of_succ_lt_succ h
      simpa [dedupResults, dedupSeen] using ih (dedupStep urls it.Links).2 j hj

/-- C1 (counterexample): the specification claim (acceptance iff no link
occurs among the links of previously accepted items) is false: the single
item with links `["a", "a"]` shares no link with a previously accepted item
(there is none), yet `Deduplicate()` rejects it, because the first
occurrence of `"a"` is recorded before the second is tested. -/
theorem deduplicate_not_as_specified : ¬ DedupSpecClaim := by
  intro h
  have h2 := h [⟨"i1", 0, ["a", "a"], "", ""⟩] 0 (by decide)
  revert h2
  decide

/-- C1 (amended): an item is accepted by `Deduplicate()` iff its links are
pairwise distinct and none of them has been recorded while processing any
earlier item (accepted or rejected); the recorded set after a prefix is
`dedupSeen`, which also records the links a rejected item walked before
its first already-seen link. -/
theorem deduplicate_amended (items : List FeedItem) (i : Nat) (h : i < items.length) :
    (dedupResults [] items).getD i false = true ↔
      ((items.get ⟨i, h⟩).Links.Nodup ∧
        ∀ l ∈ (items.get ⟨i, h⟩).Links, l ∉ dedupSeen [] (items.take i)) :=
  dedup_run_general items [] i h

/-- C1 witness: in the run `[{x}], [a, x], [a]` the third item is rejected
(`a` was recorded by the rejected second item). -/
theorem deduplicate_amended_witness :
    (dedupResults [] [⟨"i1", 0, ["x"], "", ""⟩, ⟨"i2", 0, ["a", "x"], "", ""⟩,
      ⟨"i3", 0, ["a"], "", ""⟩]).getD 2 false = false := by
  have h := deduplicate_amended
    [⟨"i1", 0, ["x"], "", ""⟩, ⟨"i2", 0, ["a", "x"], "", ""⟩, ⟨"i3", 0, ["a"], "", ""⟩]
    2 (by decide)
  revert h
  decide

/-- C5 (amended): an item with the zero/unset publish time is rejected by
`OldestItem(maxAge)` for every `maxAge` smaller than the elapsed time since
the zero timestamp capped at Go's maximum duration `2^63 - 1` ns
(`time.Since` saturates there). -/
theorem oldestItem_zero_always_expired (now maxAge : Int) (item : FeedItem)
    (hz : item.PublishTime = goTimeZero)
    (hsmall : maxAge < min (now - goTimeZero) goMaxDuration) :
    OldestItem now maxAge item = false := by
  have hmax : goMaxDuration = 9223372036854775807 := by norm_num [goMaxDuration]
  have hmin : goMinDuration = -9223372036854775808 := by norm_num [goMinDuration]
  rw [OldestItem, decide_eq_false_iff_not, goSince, hz]
  split_ifs <;> omega

/-- C5 witness: at 2026-01-01 with a 24h cutoff the unset-date item is
rejected. -/
theorem oldestItem_zero_always_expired_witness :
    OldestItem 1767225600000000000 86400000000000 ⟨"", goTimeZero, [], "", ""⟩ = false := by
  refine oldestItem_zero_always_expired _ _ _ rfl ?_
  norm_num [goTimeZero, goMaxDuration]

/-- C5 (counterexample): with `maxAge = 2^63 - 1` ns, which is smaller than
the elapsed time since the zero timestamp (about 2026 years), the
unset-date item is nevertheless accepted, because `time.Since` saturates
at the maximum duration. -/
theorem oldestItem_zero_spec_counterexample :
    OldestItem 1767225600000000000 (2 ^ 63 - 1) ⟨"", goTimeZero, [], "", ""⟩ = true ∧
      (2 ^ 63 - 1 : Int) < 1767225600000000000 - goTimeZero := by
  constructor
  · decide
  · norm_num [goTimeZero]

/-- C7 (amended): whenever `now - publishTime` is representable as a Go
duration, `OldestItem(d)` accepts iff `now - publishTime ≤ d`; the boundary
is inclusive. -/
theorem oldestItem_age_iff (now d : Int) (item : FeedItem)
    (hlo : goMinDuration ≤ now - item.PublishTime)
    (hhi : now - item.PublishTime ≤ goMaxDuration) :
    OldestItem now d item = true ↔ now - item.PublishTime ≤ d := by
  rw [OldestItem, decide_eq_true_eq, goSince]
  split_ifs <;> omega

/-- C7 witness: an item published exactly `d` ago (`now - publishTime = 60
= d`) is accepted: the boundary is inclusive. -/
theorem oldestItem_age_iff_witness :
    OldestItem 100 60 ⟨"", 40, [], "", ""⟩ = true := by
  have h := oldestItem_age_iff 100 60 ⟨"", 40, [], "", ""⟩
    (by norm_num [goMinDuration]) (by norm_num [goMaxDuration])
  exact h.mpr (by norm_num)

/-- C7 (counterexample): an item whose mathematical age exceeds
`d = 2^63 - 1` ns is accepted anyway (saturating duration), so "accepts
iff now minus publish time is at most d" fails as stated. -/
theorem oldestItem_iff_counterexample :
    OldestItem 1767225600000000000 (2 ^ 63 - 1) ⟨"", goTimeZero, [], "", ""⟩ = true ∧
      ¬ ((1767225600000000000 : Int) - goTimeZero ≤ 2 ^ 63 - 1) := by
  constructor
  · decide
  · norm_num [goTimeZero]

/-- Membership of an entry gives key membership in the item map. -/
theorem mapHasKey_of_mem (m : List (String × Item)) (kv : String × Item)
    (h : kv ∈ m) : mapHasKey m kv.1 = true := by
  simp only [mapHasKey, List.any_eq_true]
  exact ⟨kv, h, by simp⟩

/-- C6: merging a feed with itself adds no items: every key of
`hashItems(b)` already occurs in `hashItems(a)` when `a = b`, so for every
map-iteration order the appended list is empty and `merge a a = a` (item
set unchanged, no duplicates introduced). -/
theorem merge_self_idempotent (a : Feed) :
    (∀ enumB : List (String × Item),
      (∀ kv ∈ enumB, mapHasKey (hashItems a.Channel.Items) kv.1 = true) →
        mergeWith enumB a = a) ∧
    merge a a = a := by
  have main : ∀ enumB : List (String × Item),
      (∀ kv ∈ enumB, mapHasKey (hashItems a.Channel.Items) kv.1 = true) →
        mergeWith enumB a = a := by
    intro enumB hall
    have hfilter : enumB.filter
        (fun kv => mapHasKey (hashItems a.Channel.Items) kv.1 = false) = [] := by
      rw [List.filter_eq_nil_iff]
      intro kv hkv
      simp [hall kv hkv]
    rw [mergeWith]
    simp only [hfilter, List.map_nil, List.append_nil]
  refine ⟨main, main (hashItems a.Channel.Items) ?_⟩
  intro kv hkv
  exact mapHasKey_of_mem _ kv hkv

/-- Skipping `nil` feeds commutes with dropping them from the input. -/
theorem getFeedItemsGo_skip_none {σ : Type} (parse : String → String → Except String Int)
    (strip : String → Except String String) (now : Int) (filters : List (StFilter σ)) :
    ∀ (feeds : List (Option Feed)) (s : σ),
      getFeedItemsGo parse strip now filters s feeds =
        getFeedItemsGo parse strip now filters s (feeds.reduceOption.map some) := by
  intro feeds
  induction feeds with
  | nil => intro s; rfl
  | cons f rest ih =>
    intro s
    cases f with
    | none => simpa [getFeedItemsGo, List.reduceOption] using ih s
    | some feed =>
      simp only [getFeedItemsGo, List.reduceOption, List.filterMap_cons, List.map_cons]
      rw [ih]
      simp [List.reduceOption]

/-- C4: `RefreshFeeds` returns one slot per input URL with slot `i` holding
the fetch result of URL `i` (`none` on failure), and `GetFeedItems` over a
feed list with `nil` entries equals `GetFeedItems` over the non-nil
feeds only. -/
theorem refreshFeeds_indexed (fetch : String → Option Feed) (urls : List String)
    (i : Nat) (h : i < urls.length) {σ : Type}
    (parse : String → String → Except String Int) (strip : String → Except String String)
    (now : Int) (filters : List (StFilter σ)) (s0 : σ) (feeds : List (Option Feed)) :
    (RefreshFeeds fetch urls).length = urls.length ∧
    (RefreshFeeds fetch urls).getD i none = fetch (urls.getD i "") ∧
    GetFeedItems parse strip now feeds filters s0 =
      GetFeedItems parse strip now (feeds.reduceOption.map some) filters s0 := by
  refine ⟨List.length_map _ _, ?_, ?_⟩
  · simp only [RefreshFeeds]
    rw [List.getD_eq_getElem _ _ (by simpa using h), List.getD_eq_getElem _ _ h]
    simp
  · unfold GetFeedItems
    rw [getFeedItemsGo_skip_none]

/-- With no filters, unpacking emits exactly the items whose construction
succeeds. -/
theorem unpackItems_no_filters {γ : Type} (parse : String → String → Except String Int)
    (strip : String → Except String String) (now : Int) (feed : Feed) :
    ∀ (items : List Item) (s : γ),
      (unpackItems parse strip now feed ([] : List (StFilter γ)) s items).1 =
        items.filterMap (fun it => (newFeedItemCreator parse strip now feed it).toOption) := by
  intro items
  induction items with
  | nil => intro s; rfl
  | cons it rest ih =>
    intro s
    rcases h : newFeedItemCreator parse strip now feed it with e | fi <;>
      simp [unpackItems, h, applyFilters, Except.toOption, ih]

/-- C8: the date parser returns the default timestamp for the empty string;
for non-empty input it succeeds iff some format parses, returns the result
of the first succeeding format, and errs iff all formats fail; and
`GetFeedItems` emits exactly the items whose construction (date parse)
succeeds, dropping the failing ones. -/
theorem newDateParser_firstmatch (parse : String → String → Except String Int) (t : Int)
    (raw : String) (f : String) (strip : String → Except String String) (now : Int)
    (feed : Feed) :
    newDateParser parse t "" = .ok t
    ∧ (raw ≠ "" → ((newDateParser parse t raw).isOk =
        dateFormats.any (fun g => (parse g raw).isOk)))
    ∧ (raw ≠ "" → dateFormats.find? (fun g => (parse g raw).isOk) = some f →
        newDateParser parse t raw = parse f raw)
    ∧ GetFeedItems parse strip now [some feed] ([] : List (StFilter Unit)) () =
        feed.Channel.Items.filterMap
          (fun it => (newFeedItemCreator parse strip now feed it).toOption) := by
  refine ⟨by simp [newDateParser], ?_, ?_, ?_⟩
  · intro hraw
    rw [newDateParser, if_neg hraw]
    rcases h1 : parse "Mon, 02 Jan 2006 15:04:05 MST" raw with e1 | v1 <;>
      rcases h2 : parse "Mon, 02 Jan 2006 15:04:05 -0700" raw with e2 | v2 <;>
      rcases h3 : parse "Mon, 2 Jan 2006 15:04:05 MST" raw with e3 | v3 <;>
      simp [dateFormats, tryFormats, h1, h2, h3, Except.isOk, Except.toBool]
  · intro hraw hfind
    rw [newDateParser, if_neg hraw]
    rcases h1 : parse "Mon, 02 Jan 2006 15:04:05 MST" raw with e1 | v1 <;>
      rcases h2 : parse "Mon, 02 Jan 2006 15:04:05 -0700" raw with e2 | v2 <;>
      rcases h3 : parse "Mon, 2 Jan 2006 15:04:05 MST" raw with e3 | v3 <;>
      simp [dateFormats, List.find?, Except.isOk, Except.toBool, h1, h2, h3] at hfind <;>
      (subst hfind; simp [dateFormats, tryFormats, h1, h2, h3])
  · unfold GetFeedItems
    simp [getFeedItemsGo, unpackItems_no_filters]

/-- C9: when query-stripping succeeds, the link formatter emits
`https://archive.is/` + stripped link for paywall-prefixed feed URLs and
the stripped link otherwise; the paywall test is a prefix test against the
configured list; and the GUID replaces an empty item link before these
transformations. -/
theorem linkFormatter_paywall_archive (strip : String → Except String String)
    (feed : Feed) (item : Item) (s : String)
    (h : strip (goLinkOf item) = .ok s) :
    (linkFormatter strip feed item =
      if goHasPaywall feed.URL then "https://archive.is/" ++ s else s)
    ∧ (goHasPaywall feed.URL = true ↔ ∃ pw ∈ paywalls, pw.data <+: feed.URL.data)
    ∧ goLinkOf item = (if item.Link = "" then item.GUID else item.Link) := by
  refine ⟨?_, ?_, rfl⟩
  · rw [linkFormatter, h]
  · simp [goHasPaywall, goStringsHasPre, List.any_eq_true, List.isPrefixOf_iff_prefix]

/-- C9 witness: an FT item link is routed through the archive mirror. -/
theorem linkFormatter_paywall_archive_witness :
    linkFormatter (fun u => .ok u) ⟨"https://www.ft.com/rss", ⟨"FT", "", "", "", "", []⟩⟩
      ⟨"t", "https://www.ft.com/content/1", "", "", "", ""⟩ =
    "https://archive.is/https://www.ft.com/content/1" := by
  have h := linkFormatter_paywall_archive (fun u => .ok u)
    ⟨"https://www.ft.com/rss", ⟨"FT", "", "", "", "", []⟩⟩
    ⟨"t", "https://www.ft.com/content/1", "", "", "", ""⟩
    "https://www.ft.com/content/1" (by rfl)
  rw [h.1]
  norm_num [goHasPaywall, goStringsHasPre, paywalls]
  decide

/-- C10: when URL parsing of the (link or GUID) fails, the link formatter
returns the error message itself as the link string; an item's construction
succeeds iff its date parses, never failing because of the link; and such
an item is still emitted by `GetFeedItems`, with the error text as its
first link. -/
theorem linkFormatter_error_is_link (parse : String → String → Except String Int)
    (strip : String → Except String String) (now : Int) (feed : Feed) (item : Item)
    (e : String) (tv : Int) :
    (strip (goLinkOf item) = .error e → linkFormatter strip feed item = e)
    ∧ ((newFeedItemCreator parse strip now feed item).isOk =
        (newDateParser parse now item.PubDate).isOk)
    ∧ (strip (goLinkOf item) = .error e → newDateParser parse now item.PubDate = .ok tv →
        GetFeedItems parse strip now [some ⟨feed.URL, { feed.Channel with Items := [item] }⟩]
            ([] : List (StFilter Unit)) () =
          [⟨item.Title, tv, e :: (if item.Comments ≠ "" then [item.Comments] else []),
            feed.Channel.Title, feed.Channel.Title⟩]) := by
  refine ⟨?_, ?_, ?_⟩
  · intro h
    rw [linkFormatter, h]
  · rcases hd : newDateParser parse now item.PubDate with de | dv <;>
      simp [newFeedItemCreator, hd, Except.isOk, Except.toBool]
  · intro h1 h2
    simp [GetFeedItems, getFeedItemsGo, unpackItems, newFeedItemCreator, h2,
      linkFormatter, h1, applyFilters]

/-- C10 witness: an item with an unparsable link is emitted with the parse
error text as its first link. -/
theorem linkFormatter_error_is_link_witness :
    GetFeedItems (fun _ _ => .ok 7) (fun _ => .error "parse \x22:%\x22: bad URL") 0
        [some ⟨"u", ⟨"T", "", "", "", "", [⟨"t", ":%", "d", "", "", ""⟩]⟩⟩]
        ([] : List (StFilter Unit)) () =
      [⟨"t", 7, ["parse \x22:%\x22: bad URL"], "T", "T"⟩] := by
  have h := linkFormatter_error_is_link (fun _ _ => .ok 7)
    (fun _ => .error "parse \x22:%\x22: bad URL") 0
    ⟨"u", ⟨"T", "", "", "", "", [⟨"t", ":%", "d", "", "", ""⟩]⟩⟩
    ⟨"t", ":%", "d", "", "", ""⟩ "parse \x22:%\x22: bad URL" 7
  simpa using h.2.2 rfl rfl

/-- C8 witness: a parse function succeeding only on the second format
(RFC1123Z) makes the parser return that format's result. -/
theorem newDateParser_firstmatch_witness :
    newDateParser (fun g r => if g = "Mon, 02 Jan 2006 15:04:05 -0700" ∧ r = "D" then .ok 11
      else .error "bad") 3 "D" =
      .ok 11 := by
  have h := newDateParser_firstmatch
    (fun g r => if g = "Mon, 02 Jan 2006 15:04:05 -0700" ∧ r = "D" then .ok 11
      else .error "bad") 3 "D" "Mon, 02 Jan 2006 15:04:05 -0700" (fun u => .ok u) 0
    ⟨"u", ⟨"T", "", "", "", "", []⟩⟩
  rw [h.2.2.1 (by decide) (by decide)]
  simp

/-- C4 witness: slot 0 of a concrete two-URL refresh holds the fetch result
of the first URL. -/
theorem refreshFeeds_indexed_witness :
    (RefreshFeeds (fun u => if u = "u1" then some ⟨"u1", ⟨"A", "", "", "", "", []⟩⟩ else none)
        ["u1", "u2"]).getD 0 none =
      some ⟨"u1", ⟨"A", "", "", "", "", []⟩⟩ := by
  have h := refreshFeeds_indexed
    (fun u => if u = "u1" then some ⟨"u1", ⟨"A", "", "", "", "", []⟩⟩ else none)
    ["u1", "u2"] 0 (by decide) (fun _ _ => Except.ok 0) (fun u => Except.ok u) 0
    ([] : List (StFilter Unit)) () []
  rw [h.2.1]
  decide

/-- C6 witness: a concrete two-item feed merged with itself is unchanged. -/
theorem merge_self_idempotent_witness :
    mergeWith (hashItems [⟨"t1", "l1", "d1", "", "", ""⟩, ⟨"t2", "l2", "d2", "", "", ""⟩])
        ⟨"u", ⟨"T", "", "", "", "", [⟨"t1", "l1", "d1", "", "", ""⟩, ⟨"t2", "l2", "d2", "", "", ""⟩]⟩⟩ =
      ⟨"u", ⟨"T", "", "", "", "", [⟨"t1", "l1", "d1", "", "", ""⟩, ⟨"t2", "l2", "d2", "", "", ""⟩]⟩⟩ :=
  (merge_self_idempotent
    ⟨"u", ⟨"T", "", "", "", "", [⟨"t1", "l1", "d1", "", "", ""⟩, ⟨"t2", "l2", "d2", "", "", ""⟩]⟩⟩).1
    _ (by decide)

/-- Setting an in-range position and consing the old value permutes. -/
theorem cons_set_perm {α : Type} [Inhabited α] :
    ∀ (t : List α) (j : Nat) (x : α), j < t.length →
      (lget t j :: t.set j x).Perm (x :: t) := by
  intro t
  induction t with
  | nil => intro j x h; cases h
  | cons y s ih =>
    intro j x h
    cases j with
    | zero =>
      simp only [lget, List.getD_cons_zero, List.set_cons_zero]
      exact List.Perm.swap x y s
    | succ k =>
      have hk : k < s.length := Nat.lt_of_succ_lt_succ h
      simp only [lget, List.getD_cons_succ, List.set_cons_succ]
      refine (List.Perm.swap _ _ _).trans ?_
      refine (((ih k x hk).cons y).trans ?_)
      exact List.Perm.swap _ _ _

/-- A slice swap is a permutation. -/
theorem lswap_perm {α : Type} [Inhabited α] :
    ∀ (l : List α) (i j : Nat), (lswap l i j).Perm l := by
  intro l
  induction l with
  | nil => intro i j; simp [lswap]
  | cons x t ih =>
    intro i j
    rw [lswap]
    split_ifs with h
    · rcases h with ⟨hi, hj⟩
      cases i with
      | zero =>
        cases j with
        | zero => simp [lget]
        | succ k =>
          have hk : k < t.length := Nat.lt_of_succ_lt_succ hj
          simp only [lget, List.getD_cons_succ, List.set_cons_zero, List.getD_cons_zero,
            List.set_cons_succ]
          exact cons_set_perm t k x hk
      | succ m =>
        cases j with
        | zero =>
          have hm : m < t.length := Nat.lt_of_succ_lt_succ hi
          simp only [lget, List.getD_cons_zero, List.getD_cons_succ, List.set_cons_succ,
            List.set_cons_zero]
          exact cons_set_perm t m x hm
        | succ k =>
          have hm : m < t.length := Nat.lt_of_succ_lt_succ hi
          have hk : k < t.length := Nat.lt_of_succ_lt_succ hj
          simp only [lget, List.getD_cons_succ, List.set_cons_succ]
          refine List.Perm.cons x ?_
          have := ih m k
          rw [lswap] at this
          rw [if_pos ⟨hm, hk⟩] at this
          exact this
    · exact List.Perm.refl _

theorem insertionInner_perm {α : Type} [Inhabited α] (less : α → α → Bool) (a : Nat) :
    ∀ (j : Nat) (l : List α), (insertionInner less a j l).Perm l := by
  intro j
  induction j with
  | zero => intro l; exact List.Perm.refl _
  | succ k ih =>
    intro l
    rw [insertionInner]
    split_ifs with h
    · exact (ih _).trans (lswap_perm _ _ _)
    · exact List.Perm.refl _

theorem insertionOuter_perm {α : Type} [Inhabited α] (less : α → α → Bool) (a : Nat) :
    ∀ (n i : Nat) (l : List α), (insertionOuter less a n i l).Perm l := by
  intro n
  induction n with
  | zero => intro i l; exact List.Perm.refl _
  | succ k ih =>
    intro i l
    exact (ih _ _).trans (insertionInner_perm less a i l)

theorem insertionSortRange_perm {α : Type} [Inhabited α] (less : α → α → Bool)
    (a b : Nat) (l : List α) : (insertionSortRange less a b l).Perm l :=
  insertionOuter_perm less a _ _ l

theorem shellPassGo_perm {α : Type} [Inhabited α] (less : α → α → Bool) :
    ∀ (n i : Nat) (l : List α), (shellPassGo less n i l).Perm l := by
  intro n
  induction n with
  | zero => intro i l; exact List.Perm.refl _
  | succ k ih =>
    intro i l
    refine (ih _ _).trans ?_
    split_ifs with h
    · exact lswap_perm _ _ _
    · exact List.Perm.refl _

theorem siftDown_perm {α : Type} [Inhabited α] (less : α → α → Bool) (first : Nat) :
    ∀ (fuel root hi : Nat) (l : List α), (siftDown less first fuel root hi l).Perm l := by
  intro fuel
  induction fuel with
  | zero => intro root hi l; exact List.Perm.refl _
  | succ k ih =>
    intro root hi l
    rw [siftDown]
    dsimp only
    split_ifs <;>
      first
        | exact List.Perm.refl _
        | exact (ih _ _ _).trans (lswap_perm _ _ _)

theorem heapify_perm {α : Type} [Inhabited α] (less : α → α → Bool) (first hi : Nat) :
    ∀ (c : Nat) (l : List α), (heapify less first hi c l).Perm l := by
  intro c
  induction c with
  | zero => intro l; exact List.Perm.refl _
  | succ k ih =>
    intro l
    exact (ih _).trans (siftDown_perm less first _ _ _ l)

theorem heapExtract_perm {α : Type} [Inhabited α] (less : α → α → Bool) (first : Nat) :
    ∀ (i : Nat) (l : List α), (heapExtract less first i l).Perm l := by
  intro i
  induction i with
  | zero => intro l; exact List.Perm.refl _
  | succ k ih =>
    intro l
    exact (ih _).trans ((siftDown_perm less first _ _ _ _).trans (lswap_perm _ _ _))

theorem heapSortRange_perm {α : Type} [Inhabited α] (less : α → α → Bool)
    (a b : Nat) (l : List α) : (heapSortRange less a b l).Perm l :=
  (heapExtract_perm less a _ _).trans (heapify_perm less a _ _ l)

theorem medianOfThree_perm {α : Type} [Inhabited α] (less : α → α → Bool)
    (m1 m0 m2 : Nat) (l : List α) : (medianOfThree less m1 m0 m2 l).Perm l := by
  rw [medianOfThree]
  dsimp only
  split_ifs with h1 h2 h3 h4 h5 <;>
    first
      | exact List.Perm.refl _
      | exact lswap_perm _ _ _
      | exact (lswap_perm _ _ _).trans (lswap_perm _ _ _)
      | exact ((lswap_perm _ _ _).trans (lswap_perm _ _ _)).trans (lswap_perm _ _ _)

theorem dpMain_perm {α : Type} [Inhabited α] (less : α → α → Bool) (pivot : Nat) :
    ∀ (fuel b c : Nat) (l : List α), (dpMain less pivot fuel b c l).2.2.Perm l := by
  intro fuel
  induction fuel with
  | zero => intro b c l; exact List.Perm.refl _
  | succ k ih =>
    intro b c l
    rw [dpMain]
    split_ifs
    · exact List.Perm.refl _
    · exact (ih _ _ _).trans (lswap_perm _ _ _)

theorem dpProtect_perm {α : Type} [Inhabited α] (less : α → α → Bool) (pivot : Nat) :
    ∀ (fuel a b : Nat) (l : List α), (dpProtect less pivot fuel a b l).2.Perm l := by
  intro fuel
  induction fuel with
  | zero => intro a b l; exact List.Perm.refl _
  | succ k ih =>
    intro a b l
    rw [dpProtect]
    split_ifs
    · exact List.Perm.refl _
    · exact (ih _ _ _).trans (lswap_perm _ _ _)

theorem doPivotMedians_perm {α : Type} [Inhabited α] (less : α → α → Bool)
    (lo hi : Nat) (l : List α) : (doPivotMedians less lo hi l).Perm l := by
  rw [doPivotMedians]
  dsimp only
  split_ifs
  · exact (medianOfThree_perm _ _ _ _ _).trans
      (((medianOfThree_perm _ _ _ _ _).trans
        ((medianOfThree_perm _ _ _ _ _).trans (medianOfThree_perm _ _ _ _ _))))
  · exact medianOfThree_perm _ _ _ _ _

theorem doPivotBalance_perm {α : Type} [Inhabited α] (less : α → α → Bool)
    (lo hi m b1 c1 : Nat) (l : List α) :
    (doPivotBalance less lo hi m b1 c1 l).2.2.1.Perm l := by
  rw [doPivotBalance]
  dsimp only
  split_ifs <;>
    first
      | exact List.Perm.refl _
      | exact lswap_perm _ _ _
      | exact (lswap_perm _ _ _).trans (lswap_perm _ _ _)

theorem doPivot_perm {α : Type} [Inhabited α] (less : α → α → Bool)
    (lo hi : Nat) (l : List α) : (doPivot less lo hi l).2.2.Perm l := by
  rw [doPivot]
  dsimp only
  refine (lswap_perm _ _ _).trans ?_
  have base : (doPivotBalance less lo hi ((lo + hi) / 2)
      (dpMain less lo (hi + 1)
        (dpLoopA less lo (hi - 1) (hi - 1 + 1) (lo + 1) (doPivotMedians less lo hi l))
        (hi - 1) (doPivotMedians less lo hi l)).1
      (dpMain less lo (hi + 1)
        (dpLoopA less lo (hi - 1) (hi - 1 + 1) (lo + 1) (doPivotMedians less lo hi l))
        (hi - 1) (doPivotMedians less lo hi l)).2.1
      (dpMain less lo (hi + 1)
        (dpLoopA less lo (hi - 1) (hi - 1 + 1) (lo + 1) (doPivotMedians less lo hi l))
        (hi - 1) (doPivotMedians less lo hi l)).2.2).2.2.1.Perm l :=
    (doPivotBalance_perm _ _ _ _ _ _ _).trans
      ((dpMain_perm _ _ _ _ _ _).trans (doPivotMedians_perm _ _ _ _))
  split_ifs
  · exact (dpProtect_perm _ _ _ _ _ _).trans base
  · exact base

theorem quickSortGo_perm {α : Type} [Inhabited α] (less : α → α → Bool) :
    ∀ (fuel a b d : Nat) (l : List α), (quickSortGo less fuel a b d l).Perm l := by
  intro fuel
  induction fuel with
  | zero => intro a b d l; exact List.Perm.refl _
  | succ k ih =>
    intro a b d l
    rw [quickSortGo]
    dsimp only
    split_ifs
    · exact heapSortRange_perm _ _ _ _
    · exact (ih _ _ _ _).trans ((ih _ _ _ _).trans (doPivot_perm _ _ _ _))
    · exact (ih _ _ _ _).trans ((ih _ _ _ _).trans (doPivot_perm _ _ _ _))
    · exact (insertionSortRange_perm _ _ _ _).trans (shellPassGo_perm _ _ _ _)
    · exact List.Perm.refl _

theorem goSortSlice_perm {α : Type} [Inhabited α] (less : α → α → Bool)
    (l : List α) : (goSortSlice less l).Perm l :=
  quickSortGo_perm less _ _ _ _ l

theorem lget_append {α : Type} [Inhabited α] :
    ∀ (u : List α) (x : α) (suf : List α), lget (u ++ x :: suf) u.length = x := by
  intro u
  induction u with
  | nil => intro x suf; rfl
  | cons y t ih =>
    intro x suf
    have := ih x suf
    simp only [lget, List.cons_append, List.length_cons, List.getD_cons_succ]
    exact this

theorem set_append_len {α : Type} :
    ∀ (u : List α) (y v : α) (t : List α), (u ++ y :: t).set u.length v = u ++ v :: t := by
  intro u
  induction u with
  | nil => intro y v t; rfl
  | cons z s ih =>
    intro y v t
    have := ih y v t
    simp only [List.cons_append, List.length_cons, List.set_cons_succ]
    rw [this]

theorem lswap_adjacent {α : Type} [Inhabited α] :
    ∀ (u : List α) (e x : α) (suf : List α),
      lswap (u ++ e :: x :: suf) (u.length + 1) u.length = u ++ x :: e :: suf := by
  intro u e x suf
  have hx : lget (u ++ e :: x :: suf) (u.length + 1) = x := by
    have := lget_append (u ++ [e]) x suf
    simpa [List.append_assoc] using this
  have he : lget (u ++ e :: x :: suf) u.length = e := lget_append u e (x :: suf)
  have hlen1 : u.length + 1 < (u ++ e :: x :: suf).length := by
    simp [List.length_append]
  have hlen2 : u.length < (u ++ e :: x :: suf).length := by
    simp [List.length_append]
  rw [lswap, if_pos ⟨hlen1, hlen2⟩, hx, he]
  have hset1 : (u ++ e :: x :: suf).set (u.length + 1) e = u ++ e :: e :: suf := by
    have := set_append_len (u ++ [e]) x e suf
    simp only [List.append_assoc, List.length_append, List.length_cons, List.length_nil,
      List.cons_append, List.nil_append] at this
    exact this
  rw [hset1]
  exact set_append_len u e x (e :: suf)

theorem insertionInner_bridge :
    ∀ (u : List FeedItem) (x : FeedItem) (suf : List FeedItem),
      insertionInner feedLess 0 u.length (u ++ x :: suf) =
        (List.orderedInsert timeLE x u.reverse).reverse ++ suf := by
  intro u
  induction u using List.reverseRecOn with
  | nil =>
    intro x suf
    simp [insertionInner, List.orderedInsert]
  | append_singleton us e ih =>
    intro x suf
    have hlen : (us ++ [e]).length = us.length + 1 := by simp
    rw [hlen, insertionInner]
    have hx : lget (us ++ [e] ++ x :: suf) (us.length + 1) = x := by
      have := lget_append (us ++ [e]) x suf
      rw [hlen] at this
      exact this
    have he : lget (us ++ [e] ++ x :: suf) us.length = e := by
      have := lget_append us e (x :: suf)
      simpa [List.append_assoc] using this
    rw [hx, he]
    by_cases hfl : feedLess x e = true
    · rw [if_pos ⟨Nat.succ_pos _, hfl⟩]
      have hswap : lswap (us ++ [e] ++ x :: suf) (us.length + 1) us.length =
          us ++ x :: e :: suf := by
        have := lswap_adjacent us e x suf
        simpa [List.append_assoc] using this
      rw [hswap, ih x (e :: suf)]
      have hnot : ¬ timeLE x e := by
        simp only [feedLess, decide_eq_true_eq] at hfl
        simp only [timeLE]
        omega
      simp [List.orderedInsert, hnot, List.append_assoc]
    · rw [if_neg (by simp [hfl])]
      have hle : timeLE x e := by
        simp only [feedLess, decide_eq_true_eq] at hfl
        simp only [timeLE]
        omega
      simp [List.orderedInsert, hle, List.append_assoc]

theorem insertionOuter_bridge :
    ∀ (rest p : List FeedItem),
      insertionOuter feedLess 0 rest.length p.length (p ++ rest) =
        rest.foldl (fun acc x => (List.orderedInsert timeLE x acc.reverse).reverse) p := by
  intro rest
  induction rest with
  | nil => intro p; simp [insertionOuter]
  | cons x rest' ih =>
    intro p
    rw [List.length_cons, insertionOuter, insertionInner_bridge p x rest']
    have hq : ((List.orderedInsert timeLE x p.reverse).reverse).length = p.length + 1 := by
      simp [List.orderedInsert_length]
    rw [← hq, ih]
    rfl

theorem foldl_reverse_bridge :
    ∀ (xs acc : List FeedItem),
      (xs.foldl (fun v x => List.orderedInsert timeLE x v) acc).reverse =
        xs.foldl (fun a x => (List.orderedInsert timeLE x a.reverse).reverse) acc.reverse := by
  intro xs
  induction xs with
  | nil => intro acc; rfl
  | cons y ys ih =>
    intro acc
    rw [List.foldl_cons, List.foldl_cons, ih]
    simp

theorem insertionSortRange_bridge (l : List FeedItem) :
    insertionSortRange feedLess 0 l.length l = stableDescSort l := by
  cases l with
  | nil => rfl
  | cons x rest =>
    rw [insertionSortRange, stableDescSort]
    have h1 : (x :: rest).length - (0 + 1) = rest.length := by simp
    rw [h1]
    simp only [Nat.zero_add]
    have lhs_eq : insertionOuter feedLess 0 rest.length 1 (x :: rest) =
        rest.foldl (fun acc y => (List.orderedInsert timeLE y acc.reverse).reverse) [x] := by
      have := insertionOuter_bridge rest [x]
      simpa using this
    rw [lhs_eq, List.foldl_cons]
    have h4 : List.orderedInsert timeLE x ([] : List FeedItem) = [x] := rfl
    rw [h4, foldl_reverse_bridge rest [x]]
    rfl

theorem ascFold_sorted :
    ∀ (xs acc : List FeedItem), acc.Sorted timeLE →
      (xs.foldl (fun v x => List.orderedInsert timeLE x v) acc).Sorted timeLE := by
  intro xs
  induction xs with
  | nil => intro acc h; exact h
  | cons x ys ih =>
    intro acc h
    exact ih _ (h.orderedInsert x acc)

theorem stableDescSort_sorted (l : List FeedItem) :
    (stableDescSort l).Pairwise (fun a b : FeedItem => b.PublishTime ≤ a.PublishTime) := by
  rw [stableDescSort, List.pairwise_reverse]
  exact ascFold_sorted l [] List.sorted_nil

theorem reverseChronological_sorted_le12 (l : List FeedItem) (h : l.length ≤ 12) :
    (ReverseChronological l).Pairwise (fun a b : FeedItem => b.PublishTime ≤ a.PublishTime) := by
  rw [ReverseChronological, goSortSlice, quickSortGo]
  dsimp only
  rw [if_neg (by omega)]
  by_cases h1 : l.length - 0 > 1
  · rw [if_pos h1]
    have hlen : (shellPass feedLess 0 l.length l).length = l.length :=
      (shellPassGo_perm feedLess _ _ l).length_eq
    nth_rewrite 1 [show l.length = (shellPass feedLess 0 l.length l).length from hlen.symm]
    rw [insertionSortRange_bridge (shellPass feedLess 0 l.length l)]
    exact stableDescSort_sorted _
  · rw [if_neg h1]
    match l, h1 with
    | [], _ => exact List.Pairwise.nil
    | [x], _ => simp
    | x :: y :: t, h1 => exact absurd (by simp) h1

theorem itemsByFeed_filter :
    ∀ (items : List FeedItem) (m0 : String → List FeedItem) (f : String),
      (items.foldl (fun m it => fun k => if k = it.Feed then m k ++ [it] else m k) m0) f =
        m0 f ++ items.filter (fun it => decide (it.Feed = f)) := by
  intro items
  induction items with
  | nil => intro m0 f; simp
  | cons it rest ih =>
    intro m0 f
    rw [List.foldl_cons, ih]
    by_cases h : f = it.Feed
    · subst h
      simp [List.filter_cons]
    · simp only [List.filter_cons, decide_eq_true_eq]
      rw [if_neg h, if_neg (fun hc => h hc.symm)]

theorem feedKeys_mem :
    ∀ (items : List FeedItem) (ks : List String) (f : String),
      f ∈ items.foldl (fun ks it => if it.Feed ∈ ks then ks else ks ++ [it.Feed]) ks ↔
        f ∈ ks ∨ ∃ it ∈ items, it.Feed = f := by
  intro items
  induction items with
  | nil => intro ks f; simp
  | cons it rest ih =>
    intro ks f
    rw [List.foldl_cons, ih]
    by_cases h : it.Feed ∈ ks
    · rw [if_pos h]
      constructor
      · rintro (hf | ⟨j, hj, hjf⟩)
        · exact Or.inl hf
        · exact Or.inr ⟨j, List.mem_cons_of_mem _ hj, hjf⟩
      · rintro (hf | ⟨j, hj, hjf⟩)
        · exact Or.inl hf
        · rcases List.mem_cons.mp hj with rfl | hj'
          · exact Or.inl (hjf ▸ h)
          · exact Or.inr ⟨j, hj', hjf⟩
    · rw [if_neg h]
      constructor
      · rintro (hf | hf)
        · rcases List.mem_append.mp hf with hf' | hf'
          · exact Or.inl hf'
          · exact Or.inr ⟨it, by simp, (List.mem_singleton.mp hf').symm⟩
        · rcases hf with ⟨j, hj, hjf⟩
          exact Or.inr ⟨j, List.mem_cons_of_mem _ hj, hjf⟩
      · rintro (hf | ⟨j, hj, hjf⟩)
        · exact Or.inl (List.mem_append.mpr (Or.inl hf))
        · rcases List.mem_cons.mp hj with rfl | hj'
          · exact Or.inl (List.mem_append.mpr (Or.inr (by simp [hjf])))
          · exact Or.inr ⟨j, hj', hjf⟩

/-- C3 (amended): for every iteration order of the group map, `Grouped`
emits, per distinct feed value, one empty separator item, one title card
whose title is the feed name wrapped in green colour codes, then exactly
that feed's items (the input items with that `Feed` value, as a
permutation) in `ReverseChronological` order — provably most-recent-first
when the group has at most 12 items; every input item appears in the block
of its own feed value. -/
theorem grouped_block_structure (items : List FeedItem) (order : List String)
    (horder : order.Perm (feedKeys items)) :
    GroupedWith order items =
      (order.map (fun f => emptyFeedItem :: titleCardItem f ::
        ReverseChronological (items.filter (fun it => decide (it.Feed = f))))).flatten ∧
    (∀ f ∈ order,
      (ReverseChronological (items.filter (fun it => decide (it.Feed = f)))).Perm
        (items.filter (fun it => decide (it.Feed = f)))) ∧
    (∀ it ∈ items, it ∈ ReverseChronological (items.filter (fun j => decide (j.Feed = it.Feed)))) ∧
    (∀ f ∈ order, (items.filter (fun it => decide (it.Feed = f))).length ≤ 12 →
      (ReverseChronological (items.filter (fun it => decide (it.Feed = f)))).Pairwise
        (fun a b : FeedItem => b.PublishTime ≤ a.PublishTime)) := by
  refine ⟨?_, ?_, ?_, ?_⟩
  · rw [GroupedWith]
    congr 1
    apply List.map_congr_left
    intro f hf
    have hfk : f ∈ feedKeys items := horder.mem_iff.mp hf
    have hex : ∃ it ∈ items, it.Feed = f := by
      rcases (feedKeys_mem items [] f).mp hfk with hc | hc
      · cases hc
      · exact hc
    have hifb : itemsByFeed items f = items.filter (fun it => decide (it.Feed = f)) := by
      rw [itemsByFeed, itemsByFeed_filter items (fun _ => []) f]
      rfl
    rcases hex with ⟨j, hj, hjf⟩
    have hne : itemsByFeed items f ≠ [] := by
      rw [hifb]
      intro hnil
      have : j ∈ items.filter (fun it => decide (it.Feed = f)) :=
        List.mem_filter.mpr ⟨hj, by simp [hjf]⟩
      rw [hnil] at this
      cases this
    dsimp only
    rw [if_neg hne, hifb]
  · intro f _
    exact goSortSlice_perm feedLess _
  · intro it hit
    have : it ∈ items.filter (fun j => decide (j.Feed = it.Feed)) :=
      List.mem_filter.mpr ⟨hit, by simp⟩
    exact ((goSortSlice_perm feedLess _).mem_iff).mpr this
  · intro f _ hlen
    exact reverseChronological_sorted_le12 _ hlen

/-- C3 witness: a concrete two-feed input in a chosen iteration order has
exactly the block structure. -/
theorem grouped_block_structure_witness :
    GroupedWith ["Y", "X"] [⟨"a", 5, [], "X", "X"⟩, ⟨"b", 7, [], "Y", "Y"⟩] =
      (["Y", "X"].map (fun f => emptyFeedItem :: titleCardItem f ::
        ReverseChronological ([⟨"a", 5, [], "X", "X"⟩, ⟨"b", 7, [], "Y", "Y"⟩].filter
          (fun it => decide (it.Feed = f))))).flatten :=
  (grouped_block_structure [⟨"a", 5, [], "X", "X"⟩, ⟨"b", 7, [], "Y", "Y"⟩] ["Y", "X"]
    (by decide)).1

/-- C3 (counterexample): the title card's title is not the feed name but
the feed name wrapped in the green ANSI colour escape. -/
theorem grouped_titlecard_counterexample :
    Grouped [⟨"a", 5, ["l"], "F", "F"⟩] =
      [emptyFeedItem, ⟨"\x1b[32m" ++ "F" ++ "\x1b[0m", goTimeZero, [], "", ""⟩,
        ⟨"a", 5, ["l"], "F", "F"⟩] ∧
    ("\x1b[32m" ++ "F" ++ "\x1b[0m" : String) ≠ "F" := by
  decide
